import Mathlib

/-!
Verification of the columnar-table core of the repository (src/src/bears.py).

The embedding is shallow: Python dictionaries become insertion-ordered
association lists, Python numbers become rationals (`ℚ`), raised exceptions
become `Except`/`Option` errors.  Each definition mirrors the corresponding
function of `bears.py`; source line numbers are cited in the doc comments.
-/

namespace Bears

/-- A cell value of a table.  Python columns hold either numbers
(`numbers.Number`: int or float, modelled by `ℚ`) or non-numeric values
(strings, the only non-numeric values occurring in this code base). -/
inductive Value where
  | vnum (q : ℚ)
  | vstr (s : String)
deriving DecidableEq

/-- `isinstance(col_value, numbers.Number)` of bears.py line 133. -/
def Value.isNum : Value → Bool
  | .vnum _ => true
  | .vstr _ => false

/-- Numeric content of a value (0 for non-numeric; only meaningful for
numeric values). -/
def Value.toQ : Value → ℚ
  | .vnum q => q
  | .vstr _ => 0

/-- The exceptions raised by DataTable methods: `ValueError` for an absent
column name (bears.py line 85), `TypeError` for a non-numeric value during
`sum` (line 134), and a failure raised by a caller-supplied transform
during `map` (line 175). -/
inductive TableError where
  | noSuchColumn (colName : String)
  | nonNumericValue
  | transformFailed
deriving DecidableEq

/-- Lookup in an insertion-ordered association list (Python `d[k]` read /
`k in d`).  Python dict keys are unique; on lists with duplicate keys this
returns the first binding, matching the model invariant that `dset` keeps
keys unique. -/
def dfind {κ α : Type} [DecidableEq κ] : List (κ × α) → κ → Option α
  | [], _ => none
  | (k₀, v₀) :: rest, k => if k₀ = k then some v₀ else dfind rest k

/-- The keys of an association list, in insertion order. -/
def dkeys {κ α : Type} (d : List (κ × α)) : List κ :=
  d.map Prod.fst

/-- Python dict assignment `d[k] = v`: updates the binding in place if the
key is present (keeping its position), otherwise appends a new binding. -/
def dset {κ α : Type} [DecidableEq κ] : List (κ × α) → κ → α → List (κ × α)
  | [], k, v => [(k, v)]
  | (k₀, v₀) :: rest, k, v =>
      if k₀ = k then (k₀, v) :: rest else (k₀, v₀) :: dset rest k v

/-- `result[group_by_value] += 1` on a `defaultdict(int)` (bears.py
line 107): increments the existing binding, or appends a fresh binding
with value 1 (default 0, plus 1). -/
def dbump : List (Value × Nat) → Value → List (Value × Nat)
  | [], k => [(k, 1)]
  | (k₀, n) :: rest, k =>
      if k₀ = k then (k₀, n + 1) :: rest else (k₀, n) :: dbump rest k

/-- `result[group_by_value] += col_value` on a `defaultdict(int)` (bears.py
line 137). -/
def dadd : List (Value × ℚ) → Value → ℚ → List (Value × ℚ)
  | [], k, v => [(k, v)]
  | (k₀, v₀) :: rest, k, v =>
      if k₀ = k then (k₀, v₀ + v) :: rest else (k₀, v₀) :: dadd rest k v

/-- Value of a count dictionary at a key, with the `defaultdict(int)`
default 0 for an absent key. -/
def nget (d : List (Value × Nat)) (k : Value) : Nat :=
  (dfind d k).getD 0

/-- Value of a sum dictionary at a key, with the `defaultdict(int)`
default 0 for an absent key. -/
def qget (d : List (Value × ℚ)) (k : Value) : ℚ :=
  (dfind d k).getD 0

/-- `DataTable` (bears.py line 7): a dict-like container mapping column
names to lists of row values. -/
structure DataTable where
  data_table : List (String × List Value)
deriving DecidableEq

/-- `__getitem__` (bears.py lines 44-62): validates the column name and
returns the column. -/
def DataTable.get (t : DataTable) (col_name : String) : Except TableError (List Value) :=
  match dfind t.data_table col_name with
  | none => .error (.noSuchColumn col_name)
  | some vs => .ok vs

/-- `__setitem__` (bears.py lines 64-73): unconditionally binds the column
name to the given values. -/
def DataTable.set (t : DataTable) (col_name : String) (values : List Value) : DataTable :=
  ⟨dset t.data_table col_name values⟩

/-- The loop of `count` (bears.py lines 104-108): one `dbump` per element
of the group-by column, accumulator threaded left to right. -/
def countList : List Value → List (Value × Nat) → List (Value × Nat)
  | [], acc => acc
  | v :: rest, acc => countList rest (dbump acc v)

/-- `count` (bears.py lines 88-108): validates the column, then counts the
rows for each value of the group-by column. -/
def DataTable.count (t : DataTable) (group_by : String) : Except TableError (List (Value × Nat)) :=
  match dfind t.data_table group_by with
  | none => .error (.noSuchColumn group_by)
  | some vs => .ok (countList vs [])

/-- The loop of `sum` (bears.py lines 132-137): walks
`zip(col_values, group_by_values)`; raises `TypeError` at the first
non-numeric column value, otherwise accumulates into the group's total. -/
def sumPairs : List (Value × Value) → List (Value × ℚ) → Except TableError (List (Value × ℚ))
  | [], acc => .ok acc
  | (v, g) :: rest, acc =>
      match v with
      | .vnum q => sumPairs rest (dadd acc g q)
      | .vstr _ => .error .nonNumericValue

/-- `sum` (bears.py lines 110-138): validates `col_name` then `group_by`,
then sums the column grouped by the group-by column.  Python `zip`
truncates to the shorter of the two columns. -/
def DataTable.sum (t : DataTable) (col_name group_by : String) :
    Except TableError (List (Value × ℚ)) :=
  match dfind t.data_table col_name with
  | none => .error (.noSuchColumn col_name)
  | some col_values =>
      match dfind t.data_table group_by with
      | none => .error (.noSuchColumn group_by)
      | some group_by_values => sumPairs (col_values.zip group_by_values) []

/-- `count[k]` read during `avg`: `count` is a `defaultdict(int)`, so an
absent key reads as 0 (cast to `ℚ` for the division). -/
def cgetQ (cnt : List (Value × Nat)) (k : Value) : ℚ :=
  ((dfind cnt k).getD 0 : Nat)

/-- `avg` (bears.py lines 140-161): validates both columns, computes
`sum` and `count`, and builds `{k: sum[k]/count[k] for k in sum.keys()}`.
The division is exact rational division (Python true division). -/
def DataTable.avg (t : DataTable) (col_name group_by : String) :
    Except TableError (List (Value × ℚ)) :=
  match dfind t.data_table col_name with
  | none => .error (.noSuchColumn col_name)
  | some _ =>
    match dfind t.data_table group_by with
    | none => .error (.noSuchColumn group_by)
    | some _ =>
      match t.sum col_name group_by with
      | .error e => .error e
      | .ok s =>
        match t.count group_by with
        | .error e => .error e
        | .ok cnt => .ok (s.map (fun p => (p.1, p.2 / cgetQ cnt p.1)))

/-- The list comprehension `[func(x) for x in self.data_table[col_name]]`
(bears.py line 175): applies `func` left to right, failing at the first
element on which `func` fails, with no partial list produced. -/
def mapList (f : Value → Option Value) : List Value → Option (List Value)
  | [] => some []
  | v :: rest =>
      match f v with
      | none => none
      | some w => (mapList f rest).map (fun ws => w :: ws)

/-- `map` (bears.py lines 163-175).  The comprehension is fully evaluated
BEFORE the assignment to `self.data_table[col_name]`, so a failing
transform raises before any mutation: the returned pair is (raised error
if any, table state after the call). -/
def DataTable.map (t : DataTable) (col_name : String) (func : Value → Option Value) :
    Option TableError × DataTable :=
  match dfind t.data_table col_name with
  | none => (some (.noSuchColumn col_name), t)
  | some col =>
      match mapList func col with
      | none => (some .transformFailed, t)
      | some newCol => (none, ⟨dset t.data_table col_name newCol⟩)

/-! ### Dictionary lemmas -/

theorem nget_nil (k : Value) : nget [] k = 0 := rfl

theorem nget_dbump (d : List (Value × Nat)) (k k' : Value) :
    nget (dbump d k) k' = nget d k' + (if k' = k then 1 else 0) := by
  induction d with
  | nil =>
      by_cases h : k' = k
      · subst h; simp [dbump, nget, dfind]
      · have h' : ¬ k = k' := fun hh => h hh.symm
        simp [dbump, nget, dfind, h, h']
  | cons p rest ih =>
      obtain ⟨k₀, n⟩ := p
      by_cases h0 : k₀ = k
      · subst h0
        by_cases h : k₀ = k'
        · subst h; simp [dbump, nget, dfind]
        · have h' : ¬ k' = k₀ := fun hh => h hh.symm
          simp [dbump, nget, dfind, h, h']
      · by_cases h : k₀ = k'
        · subst h
          have hkk : ¬ k₀ = k := h0
          simp [dbump, nget, dfind, h0, eq_comm, hkk]
        · simp only [dbump, if_neg h0]
          simp only [nget, dfind, if_neg h] at ih ⊢
          exact ih

theorem mem_dkeys_dbump (d : List (Value × Nat)) (k k' : Value) :
    k' ∈ dkeys (dbump d k) ↔ k' ∈ dkeys d ∨ k' = k := by
  induction d with
  | nil => simp [dbump, dkeys, eq_comm]
  | cons p rest ih =>
      obtain ⟨k₀, n⟩ := p
      by_cases h0 : k₀ = k
      · subst h0
        simp [dbump, dkeys]
        tauto
      · simp [dbump, dkeys, if_neg h0] at ih ⊢
        tauto

theorem nget_countList (l : List Value) :
    ∀ acc k, nget (countList l acc) k
      = nget acc k + l.countP (fun x => decide (x = k)) := by
  induction l with
  | nil => intro acc k; simp [countList]
  | cons v rest ih =>
      intro acc k
      rw [countList, ih, nget_dbump, List.countP_cons]
      by_cases h : v = k
      · simp [h]
        omega
      · simp [h, eq_comm]

theorem mem_dkeys_countList (l : List Value) :
    ∀ acc k, k ∈ dkeys (countList l acc) ↔ k ∈ dkeys acc ∨ k ∈ l := by
  induction l with
  | nil => intro acc k; simp [countList]
  | cons v rest ih =>
      intro acc k
      rw [countList, ih, mem_dkeys_dbump]
      simp
      tauto

/-- The number of indices `i` of `l` at which `l[i] = k`, phrased over
`List.range`, equals the element count of `k` in `l`. -/
theorem length_filter_range (l : List Value) (k : Value) :
    ((List.range l.length).filter (fun i => decide (l[i]? = some k))).length
      = l.countP (fun x => decide (x = k)) := by
  induction l with
  | nil => simp
  | cons v rest ih =>
      rw [List.length_cons, List.range_succ_eq_map, List.filter_cons,
        List.filter_map, List.countP_cons]
      by_cases h : v = k <;>
        simp [h, Function.comp_def, ih]

/-! ### C2: count -/

/-- C2: for every table in which column `G` is present with elements
`g_1..g_n`, `count(group_by = G)` returns a mapping whose value at each
key `k` equals the number of indices `i` with `g_i = k`, and whose keys
are exactly the distinct values occurring in column `G`. -/
theorem count_spec (t : DataTable) (G : String) (gv : List Value)
    (hG : dfind t.data_table G = some gv) :
    ∃ res, t.count G = .ok res ∧
      (∀ k, nget res k
          = ((List.range gv.length).filter (fun i => decide (gv[i]? = some k))).length) ∧
      (∀ k, k ∈ dkeys res ↔ k ∈ gv) := by
  refine ⟨countList gv [], ?_, ?_, ?_⟩
  · simp [DataTable.count, hG]
  · intro k
    rw [nget_countList, length_filter_range, nget_nil]
    omega
  · intro k
    rw [mem_dkeys_countList]
    simp [dkeys]

/-- The example table of spec section 8:
`A` maps to `[1,2,3,4,5]`, `B` maps to `["x","y","x","z","z"]`. -/
def Tex : DataTable :=
  ⟨[("A", [Value.vnum 1, Value.vnum 2, Value.vnum 3, Value.vnum 4, Value.vnum 5]),
    ("B", [Value.vstr "x", Value.vstr "y", Value.vstr "x", Value.vstr "z", Value.vstr "z"])]⟩

/-- The `B` column of the example table. -/
def TexB : List Value :=
  [Value.vstr "x", Value.vstr "y", Value.vstr "x", Value.vstr "z", Value.vstr "z"]

/-- Witness for C2 at the spec section 8 scenario. -/
theorem count_spec_witness :
    ∃ res, Tex.count "B" = .ok res ∧
      (∀ k, nget res k
          = ((List.range TexB.length).filter (fun i => decide (TexB[i]? = some k))).length) ∧
      (∀ k, k ∈ dkeys res ↔ k ∈ TexB) :=
  count_spec Tex "B" TexB (by decide)

/-! ### Sum lemmas -/

theorem qget_nil (k : Value) : qget [] k = 0 := rfl

theorem qget_dadd (d : List (Value × ℚ)) (k : Value) (v : ℚ) (k' : Value) :
    qget (dadd d k v) k' = qget d k' + (if k' = k then v else 0) := by
  induction d with
  | nil =>
      by_cases h : k' = k
      · subst h; simp [dadd, qget, dfind]
      · have h' : ¬ k = k' := fun hh => h hh.symm
        simp [dadd, qget, dfind, h, h']
  | cons p rest ih =>
      obtain ⟨k₀, v₀⟩ := p
      by_cases h0 : k₀ = k
      · subst h0
        by_cases h : k₀ = k'
        · subst h; simp [dadd, qget, dfind]
        · have h' : ¬ k' = k₀ := fun hh => h hh.symm
          simp [dadd, qget, dfind, h, h']
      · by_cases h : k₀ = k'
        · have h1 : ¬ k' = k := fun hh => h0 (h.trans hh)
          simp [dadd, qget, dfind, h0, h, h1]
        · simp only [dadd, if_neg h0]
          simp only [qget, dfind, if_neg h] at ih ⊢
          exact ih

theorem mem_dkeys_dadd (d : List (Value × ℚ)) (k : Value) (v : ℚ) (k' : Value) :
    k' ∈ dkeys (dadd d k v) ↔ k' ∈ dkeys d ∨ k' = k := by
  induction d with
  | nil => simp [dadd, dkeys, eq_comm]
  | cons p rest ih =>
      obtain ⟨k₀, v₀⟩ := p
      by_cases h0 : k₀ = k
      · subst h0
        simp [dadd, dkeys]
        tauto
      · simp [dadd, dkeys, if_neg h0] at ih ⊢
        tauto

/-- The sum of the numeric contents of the first components of the pairs
whose second component equals `k`. -/
def groupFilterSum (pairs : List (Value × Value)) (k : Value) : ℚ :=
  ((pairs.filter (fun p => decide (p.2 = k))).map (fun p => p.1.toQ)).sum

theorem groupFilterSum_cons (v g : Value) (rest : List (Value × Value)) (k : Value) :
    groupFilterSum ((v, g) :: rest) k
      = (if g = k then v.toQ else 0) + groupFilterSum rest k := by
  by_cases h : g = k <;> simp [groupFilterSum, List.filter_cons, h]

/-- On all-numeric pairs, the sum loop succeeds and the accumulated value
at each key grows by the filtered group sum. -/
theorem sumPairs_ok_of_numeric (pairs : List (Value × Value))
    (hnum : ∀ p ∈ pairs, p.1.isNum = true) :
    ∀ acc, ∃ res, sumPairs pairs acc = .ok res ∧
      ∀ k, qget res k = qget acc k + groupFilterSum pairs k := by
  induction pairs with
  | nil =>
      intro acc
      exact ⟨acc, rfl, by intro k; simp [groupFilterSum]⟩
  | cons p rest ih =>
      obtain ⟨v, g⟩ := p
      intro acc
      have hv : v.isNum = true := hnum (v, g) (List.mem_cons_self _ _)
      cases v with
      | vstr s => simp [Value.isNum] at hv
      | vnum q =>
        have hrest : ∀ p ∈ rest, p.1.isNum = true :=
          fun p hp => hnum p (List.mem_cons_of_mem _ hp)
        obtain ⟨res, hok, hval⟩ := ih hrest (dadd acc g q)
        refine ⟨res, ?_, ?_⟩
        · simpa [sumPairs] using hok
        · intro k
          rw [hval, qget_dadd, groupFilterSum_cons]
          by_cases h : g = k
          · subst h
            simp [Value.toQ]
            ring
          · have h' : ¬ k = g := fun hh => h hh.symm
            simp [h, h']

/-- If the sum loop succeeds, its keys are the accumulator's keys plus the
group values of the processed pairs. -/
theorem sumPairs_ok_keys (pairs : List (Value × Value)) :
    ∀ acc res, sumPairs pairs acc = .ok res →
      ∀ k, (k ∈ dkeys res ↔ k ∈ dkeys acc ∨ k ∈ pairs.map Prod.snd) := by
  induction pairs with
  | nil =>
      intro acc res h k
      simp [sumPairs] at h
      subst h
      simp
  | cons p rest ih =>
      obtain ⟨v, g⟩ := p
      intro acc res h k
      cases v with
      | vstr s => simp [sumPairs] at h
      | vnum q =>
          rw [sumPairs] at h
          rw [ih (dadd acc g q) res h k, mem_dkeys_dadd]
          simp
          tauto

/-- The sum loop raises `nonNumericValue` exactly when some processed pair
has a non-numeric first component. -/
theorem sumPairs_error_iff (pairs : List (Value × Value)) :
    ∀ acc, (sumPairs pairs acc = .error TableError.nonNumericValue
      ↔ ∃ p ∈ pairs, p.1.isNum = false) := by
  induction pairs with
  | nil => intro acc; simp [sumPairs]
  | cons p rest ih =>
      obtain ⟨v, g⟩ := p
      intro acc
      cases v with
      | vnum q => simp [sumPairs, ih, Value.isNum]
      | vstr s => simp [sumPairs, Value.isNum]

/-- The sum loop either succeeds or raises `nonNumericValue`. -/
theorem sumPairs_cases (pairs : List (Value × Value)) :
    ∀ acc, (∃ res, sumPairs pairs acc = .ok res)
      ∨ sumPairs pairs acc = .error TableError.nonNumericValue := by
  induction pairs with
  | nil => intro acc; exact .inl ⟨acc, rfl⟩
  | cons p rest ih =>
      obtain ⟨v, g⟩ := p
      intro acc
      cases v with
      | vnum q => simpa [sumPairs] using ih (dadd acc g q)
      | vstr s => exact .inr rfl

/-- Index form of `groupFilterSum` over equal-length columns: the sum of
the `i`-th value of `col` over exactly those indices `i` at which `grp`
holds `k`. -/
theorem groupFilterSum_eq_index_sum (col grp : List Value) (k : Value)
    (hlen : col.length = grp.length) :
    groupFilterSum (col.zip grp) k
      = (((List.range grp.length).filter (fun i => decide (grp[i]? = some k))).map
          (fun i => ((col[i]?).getD (Value.vnum 0)).toQ)).sum := by
  induction col generalizing grp with
  | nil =>
      cases grp with
      | nil => simp [groupFilterSum]
      | cons g gs => simp at hlen
  | cons v cs ih =>
      cases grp with
      | nil => simp at hlen
      | cons g gs =>
          have hlen' : cs.length = gs.length := by simpa using hlen
          rw [List.zip_cons_cons, groupFilterSum_cons, ih gs hlen']
          rw [List.length_cons, List.range_succ_eq_map, List.filter_cons,
            List.filter_map]
          by_cases h : g = k
          · simp [h, Function.comp_def, List.map_map]
          · simp [h, Function.comp_def, List.map_map]

/-! ### C1: sum -/

/-- C1: for every table in which columns `c` and `g` are present with
equal length and every element of column `c` numeric, `sum(c, g)` returns
a mapping whose value at each key `k` is the sum of the column elements at
exactly those row indices where the group column holds `k`, and whose
keys are exactly the distinct values of the group column. -/
theorem sum_spec (t : DataTable) (c g : String) (colv grpv : List Value)
    (hc : dfind t.data_table c = some colv)
    (hg : dfind t.data_table g = some grpv)
    (hlen : colv.length = grpv.length)
    (hnum : ∀ v ∈ colv, v.isNum = true) :
    ∃ res, t.sum c g = .ok res ∧
      (∀ k, qget res k
          = (((List.range grpv.length).filter (fun i => decide (grpv[i]? = some k))).map
              (fun i => ((colv[i]?).getD (Value.vnum 0)).toQ)).sum) ∧
      (∀ k, k ∈ dkeys res ↔ k ∈ grpv) := by
  have hnum' : ∀ p ∈ colv.zip grpv, p.1.isNum = true := by
    intro p hp
    obtain ⟨a, b⟩ := p
    exact hnum a (List.of_mem_zip hp).1
  obtain ⟨res, hok, hval⟩ := sumPairs_ok_of_numeric (colv.zip grpv) hnum' []
  refine ⟨res, ?_, ?_, ?_⟩
  · simp [DataTable.sum, hc, hg, hok]
  · intro k
    rw [hval, groupFilterSum_eq_index_sum colv grpv k hlen, qget_nil]
    ring
  · intro k
    rw [sumPairs_ok_keys _ _ _ hok k]
    have hz : (colv.zip grpv).map Prod.snd = grpv := by
      apply List.map_snd_zip
      omega
    simp [hz, dkeys]

/-- The `A` column of the example table. -/
def TexA : List Value :=
  [Value.vnum 1, Value.vnum 2, Value.vnum 3, Value.vnum 4, Value.vnum 5]

/-- Witness for C1 at the spec section 8 scenario. -/
theorem sum_spec_witness :
    ∃ res, Tex.sum "A" "B" = .ok res ∧
      (∀ k, qget res k
          = (((List.range TexB.length).filter (fun i => decide (TexB[i]? = some k))).map
              (fun i => ((TexA[i]?).getD (Value.vnum 0)).toQ)).sum) ∧
      (∀ k, k ∈ dkeys res ↔ k ∈ TexB) :=
  sum_spec Tex "A" "B" TexA TexB (by decide) (by decide) (by decide) (by decide)

/-! ### C4: every key of sum has a positive count -/

/-- C4: whenever `sum(c, g)` succeeds, `count(g)` also succeeds and every
key of the sum result has a strictly positive count, so the per-key
division performed by `avg(c, g)` never divides by zero. -/
theorem sum_keys_have_positive_count (t : DataTable) (c g : String)
    (s : List (Value × ℚ)) (hs : t.sum c g = .ok s) :
    ∃ cnt, t.count g = .ok cnt ∧ ∀ k, k ∈ dkeys s → 0 < nget cnt k := by
  rcases hcv : dfind t.data_table c with _ | colv
  · rw [DataTable.sum, hcv] at hs; simp at hs
  rcases hgv : dfind t.data_table g with _ | grpv
  · rw [DataTable.sum, hcv, hgv] at hs; simp at hs
  rw [DataTable.sum, hcv, hgv] at hs
  refine ⟨countList grpv [], by simp [DataTable.count, hgv], ?_⟩
  intro k hk
  rw [sumPairs_ok_keys _ _ _ hs k] at hk
  rcases hk with hk | hk
  · simp [dkeys] at hk
  · have hkg : k ∈ grpv := by
      rcases List.mem_map.mp hk with ⟨p, hp, hpk⟩
      obtain ⟨a, b⟩ := p
      cases hpk
      exact (List.of_mem_zip hp).2
    rw [nget_countList, nget_nil]
    have hpos : 0 < grpv.countP (fun x => decide (x = k)) :=
      List.countP_pos_iff.mpr ⟨k, hkg, by simp⟩
    omega

/-- The result of `sum("A", "B")` on the example table. -/
def TexSum : List (Value × ℚ) :=
  [(Value.vstr "x", 4), (Value.vstr "y", 2), (Value.vstr "z", 9)]

/-- The result of `count("B")` on the example table. -/
def TexCnt : List (Value × Nat) :=
  [(Value.vstr "x", 2), (Value.vstr "y", 1), (Value.vstr "z", 2)]

/-- Concrete evaluation: `sum("A", "B")` on the example table. -/
theorem Tex_sum_eval : Tex.sum "A" "B" = .ok TexSum := by
  simp +decide [Tex, TexA, TexB, TexSum, DataTable.sum, dfind, sumPairs, dadd]
  norm_num

/-- Concrete evaluation: `count("B")` on the example table. -/
theorem Tex_count_eval : Tex.count "B" = .ok TexCnt := by
  simp +decide [Tex, TexB, TexCnt, DataTable.count, dfind, countList, dbump]

/-- Witness for C4 at the spec section 8 scenario. -/
theorem sum_keys_have_positive_count_witness :
    ∃ cnt, Tex.count "B" = .ok cnt ∧ ∀ k, k ∈ dkeys TexSum → 0 < nget cnt k :=
  sum_keys_have_positive_count Tex "A" "B" TexSum Tex_sum_eval

/-! ### C3: average -/

theorem dfind_isSome_iff_mem {κ α : Type} [DecidableEq κ] (d : List (κ × α)) (k : κ) :
    (dfind d k).isSome ↔ k ∈ dkeys d := by
  induction d with
  | nil => simp [dfind, dkeys]
  | cons p rest ih =>
      obtain ⟨k₀, v₀⟩ := p
      by_cases h : k₀ = k
      · subst h; simp [dfind, dkeys]
      · have h' : ¬ k = k₀ := fun hh => h hh.symm
        simp [dfind, dkeys, h, h', ih]

theorem dfind_map_div (s : List (Value × ℚ)) (cnt : List (Value × Nat)) (k : Value) :
    dfind (s.map (fun p => (p.1, p.2 / cgetQ cnt p.1))) k
      = (dfind s k).map (fun v => v / cgetQ cnt k) := by
  induction s with
  | nil => simp [dfind]
  | cons p rest ih =>
      obtain ⟨k₀, v₀⟩ := p
      by_cases h : k₀ = k
      · subst h; simp [dfind]
      · simp [dfind, h, ih]

/-- C3: whenever both `sum(c, g)` and `count(g)` succeed, `avg(c, g)`
succeeds, its key list equals the key list of the sum result, and its
value at every key `k` is `sum(c,g)[k] / count(g)[k]` by exact rational
division. -/
theorem avg_spec (t : DataTable) (c g : String)
    (s : List (Value × ℚ)) (cnt : List (Value × Nat))
    (hs : t.sum c g = .ok s) (hcnt : t.count g = .ok cnt) :
    ∃ a, t.avg c g = .ok a ∧ dkeys a = dkeys s ∧
      ∀ k, k ∈ dkeys s → qget a k = qget s k / (nget cnt k : ℚ) := by
  rcases hcv : dfind t.data_table c with _ | colv
  · rw [DataTable.sum, hcv] at hs; simp at hs
  rcases hgv : dfind t.data_table g with _ | grpv
  · rw [DataTable.sum, hcv, hgv] at hs; simp at hs
  refine ⟨s.map (fun p => (p.1, p.2 / cgetQ cnt p.1)), ?_, ?_, ?_⟩
  · simp [DataTable.avg, hcv, hgv, hs, hcnt]
  · simp [dkeys, List.map_map]
  · intro k hk
    have hsome : (dfind s k).isSome := (dfind_isSome_iff_mem s k).mpr hk
    rcases hfind : dfind s k with _ | v
    · rw [hfind] at hsome; simp at hsome
    rw [qget, dfind_map_div, hfind, qget, hfind]
    simp [cgetQ, nget]

/-- Witness for C3 at the spec section 8 scenario. -/
theorem avg_spec_witness :
    ∃ a, Tex.avg "A" "B" = .ok a ∧ dkeys a = dkeys TexSum ∧
      ∀ k, k ∈ dkeys TexSum → qget a k = qget TexSum k / (nget TexCnt k : ℚ) :=
  avg_spec Tex "A" "B" TexSum TexCnt Tex_sum_eval Tex_count_eval

/-! ### C5: non-numeric detection under zip truncation -/

/-- The table of the C5 counterexample: column `col` holds one non-numeric
value, column `grp` is empty, so `zip` truncates the pairing to nothing. -/
def Ttrunc : DataTable :=
  ⟨[("col", [Value.vstr "x"]), ("grp", [])]⟩

/-- C5 counterexample: both columns are present and column `col` contains
a non-numeric element, yet `sum("col", "grp")` succeeds (with the empty
mapping) because the loop walks `zip(col, grp)`, which is empty here —
so "fails with NonNumericValue iff some element of col is non-numeric"
is false as stated. -/
theorem sum_nonnumeric_cex :
    dfind Ttrunc.data_table "col" = some [Value.vstr "x"]
    ∧ dfind Ttrunc.data_table "grp" = some []
    ∧ (Value.vstr "x").isNum = false
    ∧ Ttrunc.sum "col" "grp" = .ok [] :=
  ⟨rfl, rfl, rfl, rfl⟩

/-- C5 (amended): with both columns present, `sum(c, g)` fails with
`nonNumericValue` iff some element of the zipped prefix of column `c`
(its first `min(|c|, |g|)` elements, those paired with a group value) is
non-numeric, regardless of which group it belongs to; and `avg(c, g)`
propagates exactly that failure. -/
theorem sum_nonnumeric_iff (t : DataTable) (c g : String)
    (colv grpv : List Value)
    (hc : dfind t.data_table c = some colv)
    (hg : dfind t.data_table g = some grpv) :
    (t.sum c g = .error TableError.nonNumericValue
      ↔ ∃ p ∈ colv.zip grpv, p.1.isNum = false)
    ∧ (t.sum c g = .error TableError.nonNumericValue
        → t.avg c g = .error TableError.nonNumericValue) := by
  constructor
  · rw [show t.sum c g = sumPairs (colv.zip grpv) [] by simp [DataTable.sum, hc, hg]]
    exact sumPairs_error_iff (colv.zip grpv) []
  · intro hsum
    simp [DataTable.avg, hc, hg, hsum]

/-- The column `[1, 2, "3", 4, 5]` of the spec section 8 non-numeric
scenario. -/
def TbadA : List Value :=
  [Value.vnum 1, Value.vnum 2, Value.vstr "3", Value.vnum 4, Value.vnum 5]

/-- The table of the spec section 8 non-numeric scenario. -/
def Tbad : DataTable :=
  ⟨[("A", TbadA), ("B", TexB)]⟩

/-- Witness for the amended C5 at the spec section 8 scenario. -/
theorem sum_nonnumeric_iff_witness :
    (Tbad.sum "A" "B" = .error TableError.nonNumericValue
      ↔ ∃ p ∈ TbadA.zip TexB, p.1.isNum = false)
    ∧ (Tbad.sum "A" "B" = .error TableError.nonNumericValue
        → Tbad.avg "A" "B" = .error TableError.nonNumericValue) :=
  sum_nonnumeric_iff Tbad "A" "B" TbadA TexB (by decide) (by decide)

/-! ### C6: operations on an absent column -/

/-- C6: for every table state and every column name `C` absent from the
table, `get(C)`, `count(C)`, `sum(C, ·)`, `sum(·, C)`, `avg(C, ·)`,
`avg(·, C)` and `map(C, ·)` all fail with `noSuchColumn` before doing any
work, and `map` leaves the table unchanged (the query operations return
only the error and produce no result). -/
theorem absent_column_fails (t : DataTable) (C : String)
    (h : dfind t.data_table C = none) :
    t.get C = .error (.noSuchColumn C)
    ∧ t.count C = .error (.noSuchColumn C)
    ∧ (∀ g, t.sum C g = .error (.noSuchColumn C))
    ∧ (∀ c, ∃ n, t.sum c C = .error (.noSuchColumn n))
    ∧ (∀ g, t.avg C g = .error (.noSuchColumn C))
    ∧ (∀ c, ∃ n, t.avg c C = .error (.noSuchColumn n))
    ∧ (∀ f, t.map C f = (some (.noSuchColumn C), t)) := by
  refine ⟨?_, ?_, ?_, ?_, ?_, ?_, ?_⟩
  · simp [DataTable.get, h]
  · simp [DataTable.count, h]
  · intro g; simp [DataTable.sum, h]
  · intro c
    rcases hc : dfind t.data_table c with _ | colv
    · exact ⟨c, by simp [DataTable.sum, hc]⟩
    · exact ⟨C, by simp [DataTable.sum, hc, h]⟩
  · intro g; simp [DataTable.avg, h]
  · intro c
    rcases hc : dfind t.data_table c with _ | colv
    · exact ⟨c, by simp [DataTable.avg, hc]⟩
    · exact ⟨C, by simp [DataTable.avg, hc, h]⟩
  · intro f; simp [DataTable.map, h]

/-- Witness for C6: the column name `Z` is absent from the example table. -/
theorem absent_column_fails_witness :
    Tex.get "Z" = .error (.noSuchColumn "Z")
    ∧ Tex.count "Z" = .error (.noSuchColumn "Z")
    ∧ (∀ g, Tex.sum "Z" g = .error (.noSuchColumn "Z"))
    ∧ (∀ c, ∃ n, Tex.sum c "Z" = .error (.noSuchColumn n))
    ∧ (∀ g, Tex.avg "Z" g = .error (.noSuchColumn "Z"))
    ∧ (∀ c, ∃ n, Tex.avg c "Z" = .error (.noSuchColumn n))
    ∧ (∀ f, Tex.map "Z" f = (some (.noSuchColumn "Z"), Tex)) :=
  absent_column_fails Tex "Z" (by decide)

/-! ### C7: failing transform during map -/

theorem mapList_eq_none_iff (f : Value → Option Value) (l : List Value) :
    mapList f l = none ↔ ∃ v ∈ l, f v = none := by
  induction l with
  | nil => simp [mapList]
  | cons v rest ih =>
      rcases hv : f v with _ | w
      · constructor
        · intro _
          exact ⟨v, List.mem_cons_self _ _, hv⟩
        · intro _
          rw [mapList, hv]
      · rw [show mapList f (v :: rest) = (mapList f rest).map (fun ws => w :: ws)
            from by rw [mapList, hv]]
        rw [Option.map_eq_none', ih]
        constructor
        · rintro ⟨x, hx, hfx⟩
          exact ⟨x, List.mem_cons_of_mem _ hx, hfx⟩
        · rintro ⟨x, hx, hfx⟩
          rcases List.mem_cons.mp hx with rfl | hx
          · rw [hv] at hfx; cases hfx
          · exact ⟨x, hx, hfx⟩

/-- The transform of the C7 scenario: succeeds on numeric values
(incrementing them), fails on non-numeric values, like the `int`
conversions of population_stats.py. -/
def fNum : Value → Option Value
  | .vnum q => some (.vnum (q + 1))
  | .vstr _ => none

/-- C7 counterexample: a concrete `map` call whose transform fails on an
element, after which the column — and the whole table — EQUALS its value
before the call, contradicting "the column after the failed map differs
from its value before the call".  The source materialises the whole
transformed list before assigning it, so a failure aborts before any
mutation. -/
theorem map_failure_cex :
    (Tbad.map "A" fNum).1 = some TableError.transformFailed
    ∧ (Tbad.map "A" fNum).2 = Tbad :=
  ⟨rfl, rfl⟩

/-- C7 (amended): if column `c` is present and the transform fails on some
element of it, `map` propagates the failure to the caller and the table —
in particular the column — is left exactly unchanged, not partially
modified. -/
theorem map_failure_propagates_unchanged (t : DataTable) (c : String)
    (f : Value → Option Value) (colv : List Value)
    (hc : dfind t.data_table c = some colv)
    (hfail : ∃ v ∈ colv, f v = none) :
    t.map c f = (some TableError.transformFailed, t) := by
  have hnone : mapList f colv = none := (mapList_eq_none_iff f colv).mpr hfail
  simp [DataTable.map, hc, hnone]

/-- Witness for the amended C7 at the non-numeric scenario table. -/
theorem map_failure_propagates_unchanged_witness :
    Tbad.map "A" fNum = (some TableError.transformFailed, Tbad) :=
  map_failure_propagates_unchanged Tbad "A" fNum TbadA (by decide)
    ⟨Value.vstr "3", by decide, rfl⟩

/-! ### CSV loader (bears.py lines 178-223) -/

/-- The `ValueError` raised by `read_csv` when a data row's field count
differs from the header's (bears.py lines 216-218): it reports the
expected count, the actual count and the offending row. -/
inductive CsvError where
  | malformedRow (expected actual : Nat) (row : List String)
deriving DecidableEq

/-- One body-row step of `read_csv` (bears.py lines 219-220): appends the
`idx`-th field of the row to the `idx`-th column accumulator. -/
def appendRow (cols : List (List String)) (row : List String) : List (List String) :=
  (cols.zip row).map (fun p => p.1 ++ [p.2])

/-- The body loop of `read_csv` (bears.py lines 215-221): each data row
must have exactly `ncols` fields, otherwise the whole load aborts with
`malformedRow`. -/
def readRows (ncols : Nat) : List (List String) → List (List String) →
    Except CsvError (List (List String))
  | [], cols => .ok cols
  | row :: rest, cols =>
      if row.length ≠ ncols then
        .error (.malformedRow ncols row.length row)
      else readRows ncols rest (appendRow cols row)

/-- `read_csv` (bears.py lines 178-223).  The file is modelled as its
csv-decoded rows, each a list of field strings.  The first row is the
header; the final dict comprehension over `range(len(col_names))` inserts
one column per header position, in header order, into a fresh dict — so a
repeated header name keeps the values of its LAST occurrence.  All cell
values stay textual (`Value.vstr`). -/
def read_csv (rows : List (List String)) : Except CsvError DataTable :=
  match rows with
  | [] => .ok ⟨[]⟩
  | header :: body =>
      match readRows header.length body (header.map (fun _ => [])) with
      | .error e => .error e
      | .ok cols =>
          .ok ⟨(header.zip cols).foldl (fun d p => dset d p.1 (p.2.map Value.vstr)) []⟩

/-- The column that the spec assigns to header position `j`: the `j`-th
field of each data row, in file row order, kept as text. -/
def fileColumn (body : List (List String)) (j : Nat) : List Value :=
  body.map (fun r => Value.vstr (r.getD j ""))

/-! ### CSV loader lemmas -/

theorem appendRow_length (cols : List (List String)) (row : List String) :
    (appendRow cols row).length = min cols.length row.length := by
  simp [appendRow]

theorem appendRow_getD (cols : List (List String)) (row : List String) (j : Nat)
    (hj : j < cols.length) (hj2 : j < row.length) :
    (appendRow cols row).getD j [] = cols.getD j [] ++ [row.getD j ""] := by
  have hlen : j < (appendRow cols row).length := by
    rw [appendRow_length]; omega
  rw [List.getD_eq_getElem _ _ hlen, List.getD_eq_getElem _ _ hj,
    List.getD_eq_getElem _ _ hj2]
  simp [appendRow, List.getElem_zip]

theorem readRows_ok (N : Nat) (body : List (List String))
    (hlen : ∀ r ∈ body, r.length = N) :
    ∀ cols, readRows N body cols = .ok (body.foldl appendRow cols) := by
  induction body with
  | nil => intro cols; simp [readRows]
  | cons row rest ih =>
      intro cols
      have hr : row.length = N := hlen row (List.mem_cons_self _ _)
      rw [List.foldl_cons, readRows, if_neg (by omega)]
      exact ih (fun r h => hlen r (List.mem_cons_of_mem _ h)) (appendRow cols row)

theorem foldl_appendRow_length (body : List (List String)) (N : Nat)
    (hlen : ∀ r ∈ body, r.length = N) :
    ∀ cols, cols.length = N → (body.foldl appendRow cols).length = N := by
  induction body with
  | nil => intro cols hc; simpa using hc
  | cons row rest ih =>
      intro cols hc
      have hr : row.length = N := hlen row (List.mem_cons_self _ _)
      rw [List.foldl_cons]
      exact ih (fun r h => hlen r (List.mem_cons_of_mem _ h)) (appendRow cols row)
        (by rw [appendRow_length]; omega)

theorem foldl_appendRow_getD (body : List (List String)) (N : Nat)
    (hlen : ∀ r ∈ body, r.length = N) (j : Nat) (hj : j < N) :
    ∀ cols, cols.length = N →
      (body.foldl appendRow cols).getD j []
        = cols.getD j [] ++ body.map (fun r => r.getD j "") := by
  induction body with
  | nil => intro cols hc; simp
  | cons row rest ih =>
      intro cols hc
      have hr : row.length = N := hlen row (List.mem_cons_self _ _)
      rw [List.foldl_cons,
        ih (fun r h => hlen r (List.mem_cons_of_mem _ h)) (appendRow cols row)
          (by rw [appendRow_length]; omega),
        appendRow_getD cols row j (by omega) (by omega)]
      simp

theorem dfind_dset {κ α : Type} [DecidableEq κ] (d : List (κ × α)) (k : κ) (v : α) (k' : κ) :
    dfind (dset d k v) k' = if k = k' then some v else dfind d k' := by
  induction d with
  | nil => simp [dset, dfind]
  | cons p rest ih =>
      obtain ⟨k₀, v₀⟩ := p
      by_cases h0 : k₀ = k
      · subst h0
        by_cases h : k₀ = k' <;> simp [dset, dfind, h]
      · by_cases h : k₀ = k'
        · subst h
          have h1 : ¬ k = k₀ := fun hh => h0 hh.symm
          simp [dset, dfind, h0, h1]
        · simp [dset, dfind, h0, h, ih]

/-- Lookup after folding `dset` over a pair list: the LAST binding of the
key in the pair list wins; a key not bound in the pair list falls through
to the initial dict. -/
theorem dfind_foldl_dset (pairs : List (String × List Value)) :
    ∀ d k, dfind (pairs.foldl (fun d p => dset d p.1 p.2) d) k
      = (pairs.reverse.find? (fun p => decide (p.1 = k))).elim (dfind d k) (fun p => some p.2) := by
  induction pairs with
  | nil => intro d k; simp
  | cons q rest ih =>
      intro d k
      rw [List.foldl_cons, ih, List.reverse_cons, List.find?_append]
      rcases hf : rest.reverse.find? (fun p => decide (p.1 = k)) with _ | p
      · rw [hf]
        simp only [Option.none_or]
        by_cases h : q.1 = k
        · simp [List.find?, h, dfind_dset]
        · simp [List.find?, h, dfind_dset]
      · rw [hf]
        simp

theorem find?_eq_of_prefix_none {α : Type} (l₁ l₂ : List α) (p : α → Bool)
    (h : ∀ x ∈ l₁, p x = false) :
    (l₁ ++ l₂).find? p = l₂.find? p := by
  rw [List.find?_append, List.find?_eq_none.mpr (by intro x hx; simp [h x hx])]
  simp

/-- If position `j` is the last position of `pairs` carrying its key, the
first binding of that key found in `pairs.reverse` (that is, the LAST
binding in `pairs`) is exactly the element at `j`. -/
theorem reverse_find?_eq_of_last {α : Type} (pairs : List (String × α)) (j : Nat)
    (hj : j < pairs.length)
    (hlast : ∀ (j' : Nat) (h2 : j' < pairs.length), j < j' →
      (pairs.get ⟨j', h2⟩).1 ≠ (pairs.get ⟨j, hj⟩).1) :
    pairs.reverse.find? (fun p => decide (p.1 = (pairs.get ⟨j, hj⟩).1))
      = some (pairs.get ⟨j, hj⟩) := by
  have hdecomp : pairs.reverse
      = (pairs.drop (j+1)).reverse ++ pairs.get ⟨j, hj⟩ :: (pairs.take j).reverse := by
    conv_lhs => rw [← List.take_append_drop (j+1) pairs]
    rw [List.reverse_append, List.take_succ, List.getElem?_eq_getElem hj]
    simp [List.get_eq_getElem]
  rw [hdecomp, find?_eq_of_prefix_none]
  · exact List.find?_cons_of_pos _ (by simp)
  · intro x hx
    rw [List.mem_reverse] at hx
    obtain ⟨i, hi, hxi⟩ := List.mem_iff_getElem.mp hx
    have hidx : j + 1 + i < pairs.length := by
      rw [List.length_drop] at hi
      omega
    have hx2 : x = pairs.get ⟨j + 1 + i, hidx⟩ := by
      rw [← hxi, List.get_eq_getElem, List.getElem_drop]
    rw [hx2]
    simp only [decide_eq_false_iff_not]
    exact hlast (j + 1 + i) hidx (by omega)

/-- Loading a header plus well-formed body succeeds, and for every header
position `j` that is the LAST position carrying its name, binds that name
to the `j`-th column of the file. -/
theorem read_csv_lookup (header : List String) (body : List (List String))
    (hlen : ∀ r ∈ body, r.length = header.length)
    (j : Nat) (hj : j < header.length)
    (hlast : ∀ (j' : Nat), j < j' → j' < header.length →
      header.getD j' "" ≠ header.getD j "") :
    ∃ tb, read_csv (header :: body) = .ok tb ∧
      dfind tb.data_table (header.getD j "") = some (fileColumn body j) := by
  have hc0 : (header.map (fun _ => ([] : List String))).length = header.length := by simp
  have hok := readRows_ok header.length body hlen (header.map (fun _ => []))
  set cols := body.foldl appendRow (header.map (fun _ => [])) with hcols0
  have hcl : cols.length = header.length :=
    foldl_appendRow_length body header.length hlen _ hc0
  refine ⟨⟨(header.zip cols).foldl (fun d p => dset d p.1 (p.2.map Value.vstr)) []⟩, ?_, ?_⟩
  · simp only [read_csv, hok]
  · show dfind ((header.zip cols).foldl (fun d p => dset d p.1 (p.2.map Value.vstr)) []) _ = _
    have hfold : (header.zip cols).foldl (fun d p => dset d p.1 (p.2.map Value.vstr)) []
        = ((header.zip cols).map (fun p => (p.1, p.2.map Value.vstr))).foldl
            (fun d p => dset d p.1 p.2) [] := by
      rw [List.foldl_map]
    rw [hfold, dfind_foldl_dset]
    set pairs := (header.zip cols).map (fun p => (p.1, p.2.map Value.vstr)) with hpairs
    have hplen : pairs.length = header.length := by
      simp [hpairs, List.length_zip, hcl]
    have hjp : j < pairs.length := by omega
    have hjc : j < cols.length := by omega
    have hget : pairs.get ⟨j, hjp⟩
        = (header.get ⟨j, hj⟩, (cols.get ⟨j, hjc⟩).map Value.vstr) := by
      simp [hpairs, List.get_eq_getElem, List.getElem_zip]
    have hname : (pairs.get ⟨j, hjp⟩).1 = header.getD j "" := by
      rw [hget, List.getD_eq_getElem _ _ hj]
      rfl
    have hlast2 : ∀ (j' : Nat) (h2 : j' < pairs.length), j < j' →
        (pairs.get ⟨j', h2⟩).1 ≠ (pairs.get ⟨j, hjp⟩).1 := by
      intro j' h2 hjj
      have hj2 : j' < header.length := by omega
      have h1 : (pairs.get ⟨j', h2⟩).1 = header.getD j' "" := by
        rw [List.getD_eq_getElem _ _ hj2]
        simp [hpairs, List.get_eq_getElem, List.getElem_zip]
      rw [h1, hname]
      exact hlast j' hjj hj2
    have hfind := reverse_find?_eq_of_last pairs j hjp hlast2
    rw [hname] at hfind
    rw [hfind, hget]
    simp only [Option.elim]
    congr 1
    have hcolj : cols.getD j [] = body.map (fun r => r.getD j "") := by
      rw [hcols0, foldl_appendRow_getD body header.length hlen j hj _ hc0,
        List.getD_eq_getElem _ _ (by simpa using hj)]
      simp
    have hgetj : cols.get ⟨j, hjc⟩ = body.map (fun r => r.getD j "") := by
      rw [← hcolj, List.getD_eq_getElem _ _ hjc]
      rfl
    rw [hgetj]
    simp [fileColumn, List.map_map, Function.comp_def]

/-! ### C8: well-formed CSV load -/

/-- C8: loading a CSV whose first row is a header of `N` distinct names
and whose data rows each have exactly `N` fields yields a table binding
the `j`-th header name to the list of the `j`-th field of each data row,
in file row order, every value kept as text. -/
theorem read_csv_spec (header : List String) (body : List (List String))
    (hnodup : header.Nodup)
    (hlen : ∀ r ∈ body, r.length = header.length) :
    ∃ tb, read_csv (header :: body) = .ok tb ∧
      ∀ (j : Nat), j < header.length →
        tb.get (header.getD j "") = .ok (fileColumn body j) := by
  have hok := readRows_ok header.length body hlen (header.map (fun _ => []))
  refine ⟨⟨(header.zip (body.foldl appendRow (header.map (fun _ => [])))).foldl
      (fun d p => dset d p.1 (p.2.map Value.vstr)) []⟩, by simp only [read_csv, hok], ?_⟩
  intro j hj
  have hlast : ∀ (j' : Nat), j < j' → j' < header.length →
      header.getD j' "" ≠ header.getD j "" := by
    intro j' hjj hj2
    rw [List.getD_eq_getElem _ _ hj2, List.getD_eq_getElem _ _ hj]
    intro heq
    have h3 := (List.Nodup.getElem_inj_iff hnodup).mp heq
    omega
  obtain ⟨tb2, hok2, hfind⟩ := read_csv_lookup header body hlen j hj hlast
  have heq2 : read_csv (header :: body)
      = .ok (⟨(header.zip (body.foldl appendRow (header.map (fun _ => [])))).foldl
          (fun d p => dset d p.1 (p.2.map Value.vstr)) []⟩ : DataTable) := by
    simp only [read_csv, hok]
  rw [heq2] at hok2
  injection hok2 with h2
  rw [h2]
  simp only [DataTable.get]
  rw [hfind]

/-- Witness for C8 at the claim's round-trip example: header `A,B` with
rows `1,x` and `2,y`. -/
theorem read_csv_spec_witness :
    ∃ tb, read_csv [["A", "B"], ["1", "x"], ["2", "y"]] = .ok tb ∧
      ∀ (j : Nat), j < (["A", "B"] : List String).length →
        tb.get ((["A", "B"] : List String).getD j "")
          = .ok (fileColumn [["1", "x"], ["2", "y"]] j) :=
  read_csv_spec ["A", "B"] [["1", "x"], ["2", "y"]] (by decide) (by decide)

/-! ### C9: malformed rows abort the load -/

theorem readRows_error (N : Nat) (body : List (List String)) :
    ∀ cols, (∃ r ∈ body, r.length ≠ N) →
      ∃ act row, readRows N body cols = .error (.malformedRow N act row) := by
  induction body with
  | nil => intro cols h; simp at h
  | cons row rest ih =>
      intro cols h
      by_cases hr : row.length ≠ N
      · exact ⟨row.length, row, by rw [readRows, if_pos hr]⟩
      · obtain ⟨r, hrmem, hrlen⟩ := h
        rcases List.mem_cons.mp hrmem with rfl | hmem
        · exact absurd hrlen hr
        · obtain ⟨act, row2, hres⟩ := ih (appendRow cols row) ⟨r, hmem, hrlen⟩
          exact ⟨act, row2, by rw [readRows, if_neg hr]; exact hres⟩

/-- C9: if any data row's field count differs from the header's, the load
fails with `malformedRow` (reporting the header's count, the offending
count and the offending row) and returns no table. -/
theorem read_csv_malformed (header : List String) (body : List (List String))
    (h : ∃ r ∈ body, r.length ≠ header.length) :
    ∃ act row, read_csv (header :: body)
      = .error (.malformedRow header.length act row) := by
  obtain ⟨act, row, hres⟩ := readRows_error header.length body (header.map (fun _ => [])) h
  exact ⟨act, row, by simp only [read_csv, hres]⟩

/-- Witness for C9 at the spec section 8 scenario: a header of 3 fields
and a data row of 2 fields. -/
theorem read_csv_malformed_witness :
    ∃ act row, read_csv [["A", "B", "C"], ["1", "2"]]
      = .error (.malformedRow 3 act row) :=
  read_csv_malformed ["A", "B", "C"] [["1", "2"]] ⟨["1", "2"], by decide, by decide⟩

/-! ### C10: duplicate header names -/

/-- C10: the load succeeds on any well-formed body even when the header
repeats a name, and each name is bound to the column of its LAST
occurrence: for every header position `j` that is the last occurrence of
its name, looking up that name yields exactly column `j`, so the values
of every earlier column with that name are dropped from the table. -/
theorem read_csv_duplicate_header (header : List String) (body : List (List String))
    (hlen : ∀ r ∈ body, r.length = header.length)
    (j : Nat) (hj : j < header.length)
    (hlast : ∀ (j' : Nat), j < j' → j' < header.length →
      header.getD j' "" ≠ header.getD j "") :
    ∃ tb, read_csv (header :: body) = .ok tb ∧
      tb.get (header.getD j "") = .ok (fileColumn body j) := by
  obtain ⟨tb, hok, hfind⟩ := read_csv_lookup header body hlen j hj hlast
  refine ⟨tb, hok, ?_⟩
  simp only [DataTable.get]
  rw [hfind]

/-- Witness for C10: header `A,A` with one row `1,2`; the name `A` is
bound to the last occurrence's column `["2"]`. -/
theorem read_csv_duplicate_header_witness :
    ∃ tb, read_csv [["A", "A"], ["1", "2"]] = .ok tb ∧
      tb.get ((["A", "A"] : List String).getD 1 "")
        = .ok (fileColumn [["1", "2"]] 1) :=
  read_csv_duplicate_header ["A", "A"] [["1", "2"]] (by decide) 1 (by decide)
    (by intro j' h1 h2; simp only [List.length_cons, List.length_nil] at h2; omega)

end Bears
